import Mathlib

/-!
Shallow embedding of `src/main.rs` of the `lifi-create3-crunch` repository:
a vanity-address grinder for a CREATE3-style two-hop deterministic
deployment scheme.

Modelling conventions:
* Rust byte slices and `Vec<u8>` become `List Nat` (each element a byte,
  `< 256` where it matters).
* Rust `String`/`&str` become `List Char` (all strings involved are ASCII).
* `ethers::utils::keccak256` is an external library function, so the whole
  development is parametric in `keccak : List Nat → List Nat`; theorems that
  need it assume only that it returns 32 bytes, each `< 256`.
* `hex::encode` / `hex::decode` (from `ethers::utils::hex`) are embedded
  concretely below; `.unwrap()` on `hex::decode` is modelled by `Option.getD`
  (the panicking path never carries a value in the source).
* `rand::thread_rng` is modelled by an explicit stream `rng : Nat → List Nat`
  giving the 32 random bytes drawn at each attempt; the parallel strategy
  gets one stream per worker, `rngPar : Nat → Nat → List Nat`.
* `num_cpus::get()` is modelled by an explicit parameter `numThreads`.
-/

/-- One lowercase hexadecimal digit, as produced by `hex::encode`. -/
def hexChar (n : Nat) : Char :=
  if n < 10 then Char.ofNat (48 + n) else Char.ofNat (87 + n)

/-- `hex::encode`: two lowercase hex digits per byte. -/
def hexEncode : List Nat → List Char
  | [] => []
  | b :: bs => hexChar (b / 16) :: hexChar (b % 16) :: hexEncode bs

/-- Value of one hex digit, accepting both cases, as `hex::decode` does. -/
def hexDigitVal (c : Char) : Option Nat :=
  if 48 ≤ c.toNat ∧ c.toNat ≤ 57 then some (c.toNat - 48)
  else if 97 ≤ c.toNat ∧ c.toNat ≤ 102 then some (c.toNat - 87)
  else if 65 ≤ c.toNat ∧ c.toNat ≤ 70 then some (c.toNat - 55)
  else none

/-- `hex::decode`: fails on an odd-length input or a non-hex character. -/
def hexDecode : List Char → Option (List Nat)
  | [] => some []
  | [_] => none
  | c1 :: c2 :: rest =>
    match hexDigitVal c1, hexDigitVal c2, hexDecode rest with
    | some h, some l, some bs => some ((16 * h + l) :: bs)
    | _, _, _ => none

/-- `const PROXY_BYTECODE: &str` (main.rs line 9). -/
def PROXY_BYTECODE : List Char := "0x67363d3d37363d34f03d5260086018f3".data

/-- `const FACTORY_ADDRESS: &str` (main.rs line 13). -/
def FACTORY_ADDRESS : List Char := "0x93FEC2C00BfE902F733B57c5a6CeeD7CD1384AE1".data

/-- `PROXY_BYTECODE_HASH` (main.rs lines 10-12): keccak of the decoded
proxy bytecode, parametric in the hash function. -/
def PROXY_BYTECODE_HASH (keccak : List Nat → List Nat) : List Nat :=
  keccak ((hexDecode (PROXY_BYTECODE.drop 2)).getD [])

/-- `get_deployed` (main.rs lines 31-48): the CREATE3 two-hop address
derivation, returning the `"0x"`-prefixed lowercase hex string. -/
def get_deployed (keccak : List Nat → List Nat) (salt : List Nat) : List Char :=
  let packed := 0xff :: ((hexDecode (FACTORY_ADDRESS.drop 2)).getD []
    ++ salt ++ PROXY_BYTECODE_HASH keccak)
  let encode1 := keccak packed
  let proxy := '0' :: 'x' :: hexEncode (encode1.drop 12)
  let packed2 := 0xd6 :: 0x94 :: ((hexDecode (proxy.drop 2)).getD [] ++ [0x01])
  let encoded2 := keccak packed2
  '0' :: 'x' :: hexEncode (encoded2.drop 12)

/-- Rust `str::to_lowercase` on ASCII strings. -/
def lowerStr (s : List Char) : List Char := s.map Char.toLower

/-- `is_valid_address` (main.rs lines 50-65). -/
def is_valid_address (address : List Char)
    (starts_with ends_with : Option (List Char)) : Bool :=
  if starts_with.isNone && ends_with.isNone then true
  else
    let address_lower := lowerStr address
    match starts_with, ends_with with
    | some p, some s =>
        (lowerStr p).isPrefixOf address_lower && (lowerStr s).isSuffixOf address_lower
    | some p, none => (lowerStr p).isPrefixOf address_lower
    | none, some s => (lowerStr s).isSuffixOf address_lower
    | none, none => true

/-- `struct FindSaltOptions` (main.rs lines 15-23); `max_attempts : u64`
becomes `Nat` (the loop counters only increase toward it). -/
structure FindSaltOptions where
  creator : List Char
  starts_with : Option (List Char)
  ends_with : Option (List Char)
  silent : Bool
  max_attempts : Nat
  parallel : Bool
  deriving DecidableEq

/-- `struct SaltResult` (main.rs lines 25-29). -/
structure SaltResult where
  salt : List Char
  address : List Char
  deriving DecidableEq

/-- `hex::decode(&options.creator[2..]).unwrap()` (main.rs lines 84, 121). -/
def creatorBytes (options : FindSaltOptions) : List Nat :=
  (hexDecode (options.creator.drop 2)).getD []

/-- The `while attempts < options.max_attempts` loop of `find_salt_sequential`
(main.rs lines 79-107), instrumented with the attempt counter.  `fuel` is the
number of attempts still allowed (`max_attempts - attempts`), so the guard
`attempts < max_attempts` of the source becomes `fuel > 0`; `attempts` is the
source's counter (also the index into the random stream: attempt number
`attempts + 1` draws `rng attempts`).  Each iteration performs exactly one
keccak of `creator ++ random` and one `get_deployed` call, so the returned
counter is both the attempt count and the derivation-call count. -/
def find_salt_sequential_loop (keccak : List Nat → List Nat)
    (options : FindSaltOptions) (rng : Nat → List Nat) :
    Nat → Nat → Option SaltResult × Nat
  | 0, attempts => (none, attempts)
  | fuel + 1, attempts =>
    let salt := rng attempts
    let packed := creatorBytes options ++ salt
    let hex_salt := keccak packed
    let address := get_deployed keccak hex_salt
    if is_valid_address address options.starts_with options.ends_with then
      (some { salt := '0' :: 'x' :: hexEncode salt, address := address },
       attempts + 1)
    else
      find_salt_sequential_loop keccak options rng fuel (attempts + 1)

/-- `find_salt_sequential` (main.rs lines 75-113) together with the number of
attempts (= derivation calls) it made. -/
def find_salt_sequential_run (keccak : List Nat → List Nat)
    (options : FindSaltOptions) (rng : Nat → List Nat) :
    Option SaltResult × Nat :=
  find_salt_sequential_loop keccak options rng options.max_attempts 0

/-- The value `find_salt_sequential` returns to its caller. -/
def find_salt_sequential (keccak : List Nat → List Nat)
    (options : FindSaltOptions) (rng : Nat → List Nat) : Option SaltResult :=
  (find_salt_sequential_run keccak options rng).1

/-- `let chunk_size = 10000;` (main.rs line 116). -/
def chunk_size : Nat := 10000

/-- The `for _ in 0..chunk_size` inner batch of one parallel worker
(main.rs lines 132-161), instrumented with the worker's `attempts` counter
and with the number of increments the worker applies to the shared
`progress` counter (the `Mutex` cell is modelled by counting increments;
line 140: the lock is taken, and the counter bumped, only when
`!options.silent`).  `k` is the number of batch iterations left;
`rng attempts` is the fresh randomness written over the trailing 32 bytes
of the worker's `packed` buffer, whose head stays `creatorBytes options`. -/
def find_salt_parallel_chunk (keccak : List Nat → List Nat)
    (options : FindSaltOptions) (rng : Nat → List Nat) :
    Nat → Nat → Nat → Option SaltResult × Nat × Nat
  | 0, attempts, progressCount => (none, attempts, progressCount)
  | k + 1, attempts, progressCount =>
    let randBytes := rng attempts
    let hex_salt := keccak (creatorBytes options ++ randBytes)
    let address := get_deployed keccak hex_salt
    let attempts1 := attempts + 1
    let progressCount1 := if options.silent then progressCount else progressCount + 1
    if is_valid_address address options.starts_with options.ends_with then
      (some { salt := '0' :: 'x' :: hexEncode randBytes, address := address },
       attempts1, progressCount1)
    else
      find_salt_parallel_chunk keccak options rng k attempts1 progressCount1

/-- The `while attempts < attempts_per_thread` outer loop of one parallel
worker (main.rs lines 131-162).  The guard bound is `apt`
(`attempts_per_thread`); `fuel` bounds the recursion and is instantiated
with `apt`, which suffices because every outer iteration raises `attempts`
by `chunk_size ≥ 1`. -/
def find_salt_parallel_loop (keccak : List Nat → List Nat)
    (options : FindSaltOptions) (rng : Nat → List Nat) (apt : Nat) :
    Nat → Nat → Nat → Option SaltResult × Nat × Nat
  | 0, attempts, progressCount => (none, attempts, progressCount)
  | fuel + 1, attempts, progressCount =>
    if attempts < apt then
      match find_salt_parallel_chunk keccak options rng chunk_size attempts progressCount with
      | (some r, a, p) => (some r, a, p)
      | (none, a, p) => find_salt_parallel_loop keccak options rng apt fuel a p
    else
      (none, attempts, progressCount)

/-- `attempts_per_thread` (main.rs line 118): the budget share of one
worker, by truncating integer division. -/
def attempts_per_thread (options : FindSaltOptions) (numThreads : Nat) : Nat :=
  options.max_attempts / numThreads

/-- One whole worker closure of `find_salt_parallel` (main.rs lines
124-164): result, attempts made, and shared-counter increments. -/
def find_salt_parallel_thread (keccak : List Nat → List Nat)
    (options : FindSaltOptions) (rng : Nat → List Nat) (apt : Nat) :
    Option SaltResult × Nat × Nat :=
  find_salt_parallel_loop keccak options rng apt apt 0 0

/-- `find_salt_parallel` (main.rs lines 115-165).  `rayon`'s
`find_map_any` over `0..num_threads` is modelled by the first worker (in
thread order) whose run yields a result; which worker wins a real race is
non-deterministic, but every possible winner appears among the mapped
runs, so the per-worker lemmas below cover every schedule. -/
def find_salt_parallel (keccak : List Nat → List Nat)
    (options : FindSaltOptions) (numThreads : Nat)
    (rngPar : Nat → Nat → List Nat) : Option SaltResult :=
  (List.range numThreads).findSome? fun t =>
    (find_salt_parallel_thread keccak options (rngPar t)
      (attempts_per_thread options numThreads)).1

/-- Total attempts (= derivation calls) across all workers when every
worker runs its full share (no early abandonment; a real race only makes
fewer attempts). -/
def parallel_total_attempts (keccak : List Nat → List Nat)
    (options : FindSaltOptions) (numThreads : Nat)
    (rngPar : Nat → Nat → List Nat) : Nat :=
  ((List.range numThreads).map fun t =>
    (find_salt_parallel_thread keccak options (rngPar t)
      (attempts_per_thread options numThreads)).2.1).sum

/-- Total increments applied to the shared `progress` counter across all
workers; the `Mutex<u64>` starts at `0` (main.rs line 119), so this is
also its final value. -/
def parallel_total_progress (keccak : List Nat → List Nat)
    (options : FindSaltOptions) (numThreads : Nat)
    (rngPar : Nat → Nat → List Nat) : Nat :=
  ((List.range numThreads).map fun t =>
    (find_salt_parallel_thread keccak options (rngPar t)
      (attempts_per_thread options numThreads)).2.2).sum

/-- `find_salt` (main.rs lines 67-73): strategy dispatch. -/
def find_salt (keccak : List Nat → List Nat) (options : FindSaltOptions)
    (numThreads : Nat) (rng : Nat → List Nat)
    (rngPar : Nat → Nat → List Nat) : Option SaltResult :=
  if options.parallel then find_salt_parallel keccak options numThreads rngPar
  else find_salt_sequential keccak options rng

/-- `struct Args` (main.rs lines 167-187): the parsed CLI arguments. -/
structure Args where
  creator : List Char
  starts_with : Option (List Char)
  ends_with : Option (List Char)
  max_attempts : Nat
  silent : Bool
  parallel : Bool
  deriving DecidableEq

/-- The options `main` (main.rs lines 189-201) builds from the parsed
arguments: line 192 prepends `"0x"` to a supplied `starts_with` fragment,
every other field is passed through unchanged. -/
def main_find_salt_options (args : Args) : FindSaltOptions :=
  { creator := args.creator,
    starts_with := args.starts_with.map fun s => '0' :: 'x' :: s,
    ends_with := args.ends_with,
    silent := args.silent,
    max_attempts := args.max_attempts,
    parallel := args.parallel }

/-- Closed form of the worker attempt counter of
`find_salt_parallel_loop` when no candidate ever matches: starting from
`attempts`, each outer iteration taken while `attempts < apt` adds a full
`chunk_size` batch. -/
def nm_attempts (apt : Nat) : Nat → Nat → Nat
  | 0, attempts => attempts
  | fuel + 1, attempts =>
    if attempts < apt then nm_attempts apt fuel (attempts + chunk_size)
    else attempts

/-- A degenerate stand-in hash used only to instantiate witnesses: it
satisfies the shape assumptions (32 bytes, each `< 256`) on every input. -/
def keccak0 : List Nat → List Nat := fun _ => List.replicate 32 0

/-- The all-zero random stream, for witnesses. -/
def rng0 : Nat → List Nat := fun _ => List.replicate 32 0

/-- The all-zero per-worker random streams, for witnesses. -/
def rngPar0 : Nat → Nat → List Nat := fun _ _ => List.replicate 32 0

/-- The address derivation exactly as the spec words it: keccak the 85-byte
packing `0xff ∥ factory ∥ salt ∥ proxy-bytecode-hash`, keep the low 20 bytes
as the proxy address, keccak the 23-byte packing `0xd6 0x94 ∥ proxy ∥ 0x01`,
keep the low 20 bytes, and render lowercase with the `0x` marker.  Unlike
`get_deployed` it concatenates the proxy address bytes directly instead of
round-tripping them through a hex string. -/
def get_deployed_spec (keccak : List Nat → List Nat) (salt : List Nat) : List Char :=
  let proxyAddr := (keccak (0xff :: ((hexDecode (FACTORY_ADDRESS.drop 2)).getD []
    ++ salt ++ PROXY_BYTECODE_HASH keccak))).drop 12
  '0' :: 'x' :: hexEncode ((keccak (0xd6 :: 0x94 :: (proxyAddr ++ [0x01]))).drop 12)

/-- Options for the budget-overshoot counterexample: budget 2 split over 2
workers gives each worker a share of 1, yet its first inner batch makes a
full `chunk_size` attempts; the suffix `"1"` never matches an address
derived with `keccak0` (which is the all-zero address). -/
def cexOptions : FindSaltOptions :=
  { creator := "0x".data, starts_with := none, ends_with := some "1".data,
    silent := true, max_attempts := 2, parallel := true }

/-- Options used by the concrete witnesses: no pattern, budget 1. -/
def witnessOptions : FindSaltOptions :=
  { creator := "0x".data, starts_with := none, ends_with := none,
    silent := true, max_attempts := 1, parallel := false }

/-- The result both strategies produce under `witnessOptions` with the
all-zero random streams. -/
def witnessResult : SaltResult :=
  { salt := '0' :: 'x' :: hexEncode (List.replicate 32 0),
    address := get_deployed keccak0 (keccak0 (List.replicate 32 0)) }

/-- Concrete parsed CLI arguments for the `main`-wiring witness. -/
def witnessArgs : Args :=
  { creator := "0xAB".data, starts_with := some "ab".data,
    ends_with := some "cd".data, max_attempts := 5, silent := false,
    parallel := false }

/-! ### Helper lemmas on hex encoding and string matching -/

theorem hexDigitVal_hexChar : ∀ n, n < 16 → hexDigitVal (hexChar n) = some n := by
  decide

theorem hexDecode_hexEncode (bs : List Nat) (h : ∀ b ∈ bs, b < 256) :
    hexDecode (hexEncode bs) = some bs := by
  induction bs with
  | nil => rfl
  | cons b rest ih =>
    have hb : b < 256 := h b (List.mem_cons_self b rest)
    have h1 : b / 16 < 16 := Nat.div_lt_of_lt_mul (by omega)
    have h2 : b % 16 < 16 := Nat.mod_lt _ (by omega)
    have hrest := ih fun x hx => h x (List.mem_cons_of_mem b hx)
    simp only [hexEncode, hexDecode, hexDigitVal_hexChar _ h1,
      hexDigitVal_hexChar _ h2, hrest]
    have hsplit : 16 * (b / 16) + b % 16 = b := by omega
    rw [hsplit]

theorem hexEncode_length : ∀ bs : List Nat, (hexEncode bs).length = 2 * bs.length
  | [] => rfl
  | b :: rest => by simp only [hexEncode, List.length_cons, hexEncode_length rest]; omega

theorem mem_hexEncode {c : Char} :
    ∀ {bs : List Nat}, c ∈ hexEncode bs →
      ∃ b ∈ bs, c = hexChar (b / 16) ∨ c = hexChar (b % 16) := by
  intro bs
  induction bs with
  | nil => intro h; cases h
  | cons b rest ih =>
    intro h
    simp only [hexEncode, List.mem_cons] at h
    rcases h with h | h | h
    · exact ⟨b, List.mem_cons_self b rest, Or.inl h⟩
    · exact ⟨b, List.mem_cons_self b rest, Or.inr h⟩
    · obtain ⟨x, hx, hcx⟩ := ih h
      exact ⟨x, List.mem_cons_of_mem b hx, hcx⟩

theorem isPrefixOf_eq_true_iff :
    ∀ l₁ l₂ : List Char, l₁.isPrefixOf l₂ = true ↔ ∃ t, l₂ = l₁ ++ t := by
  intro l₁
  induction l₁ with
  | nil =>
    intro l₂
    simp [List.isPrefixOf]
  | cons a as ih =>
    intro l₂
    cases l₂ with
    | nil => simp [List.isPrefixOf]
    | cons b bs =>
      simp only [List.isPrefixOf, Bool.and_eq_true, beq_iff_eq, ih bs,
        List.cons_append, List.cons.injEq]
      constructor
      · rintro ⟨rfl, t, rfl⟩
        exact ⟨t, rfl, rfl⟩
      · rintro ⟨t, rfl, rfl⟩
        exact ⟨rfl, t, rfl⟩

theorem isSuffixOf_eq_true_iff (l₁ l₂ : List Char) :
    l₁.isSuffixOf l₂ = true ↔ ∃ t, l₂ = t ++ l₁ := by
  simp only [List.isSuffixOf, isPrefixOf_eq_true_iff]
  constructor
  · rintro ⟨t, ht⟩
    refine ⟨t.reverse, ?_⟩
    have hrev := congrArg List.reverse ht
    simpa using hrev
  · rintro ⟨t, rfl⟩
    exact ⟨t.reverse, by simp⟩

/-! ### Helper lemmas on the sequential search loop -/

theorem find_salt_sequential_loop_count_le (keccak : List Nat → List Nat)
    (options : FindSaltOptions) (rng : Nat → List Nat) :
    ∀ fuel attempts,
      (find_salt_sequential_loop keccak options rng fuel attempts).2 ≤ attempts + fuel := by
  intro fuel
  induction fuel with
  | zero => intro a; simp [find_salt_sequential_loop]
  | succ n ih =>
    intro a
    simp only [find_salt_sequential_loop]
    split
    · simp
    · have h := ih (a + 1)
      omega

theorem find_salt_sequential_loop_some (keccak : List Nat → List Nat)
    (options : FindSaltOptions) (rng : Nat → List Nat) :
    ∀ fuel attempts r c,
      find_salt_sequential_loop keccak options rng fuel attempts = (some r, c) →
      ∃ i, r.salt = '0' :: 'x' :: hexEncode (rng i) ∧
        r.address = get_deployed keccak (keccak (creatorBytes options ++ rng i)) ∧
        is_valid_address r.address options.starts_with options.ends_with = true := by
  intro fuel
  induction fuel with
  | zero => intro a r c h; simp [find_salt_sequential_loop] at h
  | succ n ih =>
    intro a r c h
    simp only [find_salt_sequential_loop] at h
    split at h
    case isTrue hv =>
      simp only [Prod.mk.injEq, Option.some.injEq] at h
      obtain ⟨hr, -⟩ := h
      subst hr
      exact ⟨a, rfl, rfl, hv⟩
    case isFalse hv =>
      exact ih (a + 1) r c h

/-! ### Helper lemmas on the parallel worker loops -/

theorem find_salt_parallel_chunk_count (keccak : List Nat → List Nat)
    (options : FindSaltOptions) (rng : Nat → List Nat) :
    ∀ k attempts progressCount,
      attempts ≤ (find_salt_parallel_chunk keccak options rng k attempts progressCount).2.1 ∧
      (find_salt_parallel_chunk keccak options rng k attempts progressCount).2.1 ≤ attempts + k := by
  intro k
  induction k with
  | zero => intro a p; simp [find_salt_parallel_chunk]
  | succ n ih =>
    intro a p
    simp only [find_salt_parallel_chunk]
    split
    · simp
    · have h := ih (a + 1) (if options.silent then p else p + 1)
      omega

theorem find_salt_parallel_chunk_some (keccak : List Nat → List Nat)
    (options : FindSaltOptions) (rng : Nat → List Nat) :
    ∀ k a p r a' p',
      find_salt_parallel_chunk keccak options rng k a p = (some r, a', p') →
      ∃ i, r.salt = '0' :: 'x' :: hexEncode (rng i) ∧
        r.address = get_deployed keccak (keccak (creatorBytes options ++ rng i)) ∧
        is_valid_address r.address options.starts_with options.ends_with = true := by
  intro k
  induction k with
  | zero => intro a p r a' p' h; simp [find_salt_parallel_chunk] at h
  | succ n ih =>
    intro a p r a' p' h
    simp only [find_salt_parallel_chunk] at h
    split at h
    case isTrue hv =>
      simp only [Prod.mk.injEq, Option.some.injEq] at h
      obtain ⟨hr, -⟩ := h
      subst hr
      exact ⟨a, rfl, rfl, hv⟩
    case isFalse hv =>
      exact ih (a + 1) (if options.silent then p else p + 1) r a' p' h

theorem find_salt_parallel_chunk_none (keccak : List Nat → List Nat)
    (options : FindSaltOptions) (rng : Nat → List Nat)
    (h : ∀ i, is_valid_address
        (get_deployed keccak (keccak (creatorBytes options ++ rng i)))
        options.starts_with options.ends_with = false) :
    ∀ k a p, find_salt_parallel_chunk keccak options rng k a p =
      (none, a + k, if options.silent then p else p + k) := by
  intro k
  induction k with
  | zero => intro a p; cases hs : options.silent <;> simp [find_salt_parallel_chunk, hs]
  | succ n ih =>
    intro a p
    simp only [find_salt_parallel_chunk, h a, Bool.false_eq_true, if_false,
      ih (a + 1) (if options.silent then p else p + 1)]
    cases hs : options.silent <;> simp [hs] <;> omega

theorem find_salt_parallel_chunk_progress (keccak : List Nat → List Nat)
    (options : FindSaltOptions) (rng : Nat → List Nat) :
    ∀ k a p,
      (find_salt_parallel_chunk keccak options rng k a p).2.2 =
        if options.silent then p
        else p + ((find_salt_parallel_chunk keccak options rng k a p).2.1 - a) := by
  intro k
  induction k with
  | zero => intro a p; cases hs : options.silent <;> simp [find_salt_parallel_chunk, hs]
  | succ n ih =>
    intro a p
    simp only [find_salt_parallel_chunk]
    split
    · cases hs : options.silent <;> simp [hs]
    · have hmono := (find_salt_parallel_chunk_count keccak options rng n (a + 1)
        (if options.silent then p else p + 1)).1
      have hp := ih (a + 1) (if options.silent then p else p + 1)
      cases hs : options.silent <;> simp [hs] at hp hmono ⊢
      · omega
      · exact hp

theorem find_salt_parallel_loop_count_mono (keccak : List Nat → List Nat)
    (options : FindSaltOptions) (rng : Nat → List Nat) (apt : Nat) :
    ∀ fuel a p, a ≤ (find_salt_parallel_loop keccak options rng apt fuel a p).2.1 := by
  intro fuel
  induction fuel with
  | zero => intro a p; simp [find_salt_parallel_loop]
  | succ n ih =>
    intro a p
    simp only [find_salt_parallel_loop]
    split
    case isTrue hlt =>
      rcases hchunk : find_salt_parallel_chunk keccak options rng chunk_size a p
        with ⟨res, a1, p1⟩
      have hcnt : a ≤ a1 := by
        have hx := (find_salt_parallel_chunk_count keccak options rng chunk_size a p).1
        rw [hchunk] at hx
        exact hx
      cases res with
      | some r => exact hcnt
      | none =>
        show a ≤ (find_salt_parallel_loop keccak options rng apt n a1 p1).2.1
        exact le_trans hcnt (ih a1 p1)
    case isFalse hlt => simp

theorem find_salt_parallel_loop_count_le (keccak : List Nat → List Nat)
    (options : FindSaltOptions) (rng : Nat → List Nat) (apt : Nat) :
    ∀ fuel a p, a ≤ apt + (chunk_size - 1) →
      (find_salt_parallel_loop keccak options rng apt fuel a p).2.1
        ≤ apt + (chunk_size - 1) := by
  intro fuel
  induction fuel with
  | zero => intro a p ha; simpa [find_salt_parallel_loop] using ha
  | succ n ih =>
    intro a p ha
    simp only [find_salt_parallel_loop]
    split
    case isTrue hlt =>
      rcases hchunk : find_salt_parallel_chunk keccak options rng chunk_size a p
        with ⟨res, a1, p1⟩
      have hcnt : a1 ≤ a + chunk_size := by
        have hx := (find_salt_parallel_chunk_count keccak options rng chunk_size a p).2
        rw [hchunk] at hx
        exact hx
      have hc : chunk_size = 10000 := rfl
      have ha1 : a1 ≤ apt + (chunk_size - 1) := by omega
      cases res with
      | some r => exact ha1
      | none =>
        show (find_salt_parallel_loop keccak options rng apt n a1 p1).2.1
          ≤ apt + (chunk_size - 1)
        exact ih a1 p1 ha1
    case isFalse hlt => simpa using ha

theorem find_salt_parallel_loop_some (keccak : List Nat → List Nat)
    (options : FindSaltOptions) (rng : Nat → List Nat) (apt : Nat) :
    ∀ fuel a p r a' p',
      find_salt_parallel_loop keccak options rng apt fuel a p = (some r, a', p') →
      ∃ i, r.salt = '0' :: 'x' :: hexEncode (rng i) ∧
        r.address = get_deployed keccak (keccak (creatorBytes options ++ rng i)) ∧
        is_valid_address r.address options.starts_with options.ends_with = true := by
  intro fuel
  induction fuel with
  | zero => intro a p r a' p' h; simp [find_salt_parallel_loop] at h
  | succ n ih =>
    intro a p r a' p' h
    simp only [find_salt_parallel_loop] at h
    split at h
    case isTrue hlt =>
      rcases hchunk : find_salt_parallel_chunk keccak options rng chunk_size a p
        with ⟨res, a1, p1⟩
      rw [hchunk] at h
      cases res with
      | some r0 =>
        have h' : ((some r0 : Option SaltResult), a1, p1) = (some r, a', p') := h
        simp only [Prod.mk.injEq, Option.some.injEq] at h'
        obtain ⟨hr, -⟩ := h'
        subst hr
        exact find_salt_parallel_chunk_some keccak options rng chunk_size a p r0 a1 p1 hchunk
      | none =>
        exact ih a1 p1 r a' p' h
    case isFalse hlt => simp at h

theorem find_salt_parallel_loop_progress (keccak : List Nat → List Nat)
    (options : FindSaltOptions) (rng : Nat → List Nat) (apt : Nat) :
    ∀ fuel a p,
      (find_salt_parallel_loop keccak options rng apt fuel a p).2.2 =
        if options.silent then p
        else p + ((find_salt_parallel_loop keccak options rng apt fuel a p).2.1 - a) := by
  intro fuel
  induction fuel with
  | zero => intro a p; cases hs : options.silent <;> simp [find_salt_parallel_loop, hs]
  | succ n ih =>
    intro a p
    simp only [find_salt_parallel_loop]
    split
    case isTrue hlt =>
      rcases hchunk : find_salt_parallel_chunk keccak options rng chunk_size a p
        with ⟨res, a1, p1⟩
      have hprog : p1 = if options.silent then p else p + (a1 - a) := by
        have hx := find_salt_parallel_chunk_progress keccak options rng chunk_size a p
        rw [hchunk] at hx
        exact hx
      have hcnt : a ≤ a1 := by
        have hx := (find_salt_parallel_chunk_count keccak options rng chunk_size a p).1
        rw [hchunk] at hx
        exact hx
      cases res with
      | some r => exact hprog
      | none =>
        have hih := ih a1 p1
        have hmono := find_salt_parallel_loop_count_mono keccak options rng apt n a1 p1
        show (find_salt_parallel_loop keccak options rng apt n a1 p1).2.2 =
          if options.silent then p
          else p + ((find_salt_parallel_loop keccak options rng apt n a1 p1).2.1 - a)
        cases hs : options.silent <;> simp [hs] at hih hprog ⊢
        · omega
        · rw [hih, hprog]
    case isFalse hlt =>
      cases hs : options.silent <;> simp [hs]

theorem find_salt_parallel_loop_none (keccak : List Nat → List Nat)
    (options : FindSaltOptions) (rng : Nat → List Nat) (apt : Nat)
    (hs : options.silent = true)
    (h : ∀ i, is_valid_address
        (get_deployed keccak (keccak (creatorBytes options ++ rng i)))
        options.starts_with options.ends_with = false) :
    ∀ fuel a p, find_salt_parallel_loop keccak options rng apt fuel a p =
      (none, nm_attempts apt fuel a, p) := by
  intro fuel
  induction fuel with
  | zero => intro a p; simp [find_salt_parallel_loop, nm_attempts]
  | succ n ih =>
    intro a p
    simp only [find_salt_parallel_loop, nm_attempts]
    by_cases hlt : a < apt
    · simp only [if_pos hlt, find_salt_parallel_chunk_none keccak options rng h, hs, if_true]
      exact ih (a + chunk_size) p
    · simp [if_neg hlt]

/-! ### Generic list helpers -/

theorem list_sum_le_length_mul (l : List Nat) (c : Nat) (h : ∀ x ∈ l, x ≤ c) :
    l.sum ≤ l.length * c := by
  induction l with
  | nil => simp
  | cons x xs ih =>
    simp only [List.sum_cons, List.length_cons]
    have hx := h x (List.mem_cons_self x xs)
    have hxs := ih fun y hy => h y (List.mem_cons_of_mem x hy)
    calc x + xs.sum ≤ c + xs.length * c := Nat.add_le_add hx hxs
    _ = (xs.length + 1) * c := by ring

theorem sum_map_zero {α : Type} : ∀ l : List α, (l.map fun _ => (0 : Nat)).sum = 0
  | [] => rfl
  | x :: xs => by simp only [List.map_cons, List.sum_cons, sum_map_zero xs]

theorem findSome?_none_of_all_none {α β : Type} (f : α → Option β) :
    ∀ l : List α, (∀ x ∈ l, f x = none) → l.findSome? f = none := by
  intro l
  induction l with
  | nil => intro _; rfl
  | cons x xs ih =>
    intro h
    have hx := h x (List.mem_cons_self x xs)
    simp only [List.findSome?, hx]
    exact ih fun y hy => h y (List.mem_cons_of_mem x hy)

/-! ### Claim theorems -/

/-- C2: `is_valid_address` returns `true` exactly when the lowercased
address extends the lowercased prefix fragment (when present) on the left
and the lowercased suffix fragment (when present) on the right; with both
fragments absent it is always `true`. -/
theorem is_valid_address_iff (a : List Char) (sw ew : Option (List Char)) :
    (is_valid_address a sw ew = true ↔
      (∀ p, sw = some p → ∃ t, lowerStr a = lowerStr p ++ t) ∧
      (∀ s, ew = some s → ∃ t, lowerStr a = t ++ lowerStr s)) ∧
    is_valid_address a none none = true := by
  refine ⟨?_, rfl⟩
  cases sw with
  | none =>
    cases ew with
    | none =>
      constructor
      · intro _
        exact ⟨fun p hp => Option.noConfusion hp, fun s hs => Option.noConfusion hs⟩
      · intro _
        rfl
    | some s =>
      have hd : is_valid_address a none (some s)
          = (lowerStr s).isSuffixOf (lowerStr a) := rfl
      rw [hd, isSuffixOf_eq_true_iff]
      constructor
      · rintro ⟨t, ht⟩
        refine ⟨fun p hp => Option.noConfusion hp, fun s' hs' => ?_⟩
        injection hs' with hss
        subst hss
        exact ⟨t, ht⟩
      · rintro ⟨-, h2⟩
        exact h2 s rfl
  | some p =>
    cases ew with
    | none =>
      have hd : is_valid_address a (some p) none
          = (lowerStr p).isPrefixOf (lowerStr a) := rfl
      rw [hd, isPrefixOf_eq_true_iff]
      constructor
      · rintro ⟨t, ht⟩
        refine ⟨fun p' hp' => ?_, fun s hs => Option.noConfusion hs⟩
        injection hp' with hpp
        subst hpp
        exact ⟨t, ht⟩
      · rintro ⟨h1, -⟩
        exact h1 p rfl
    | some s =>
      have hd : is_valid_address a (some p) (some s)
          = ((lowerStr p).isPrefixOf (lowerStr a)
            && (lowerStr s).isSuffixOf (lowerStr a)) := rfl
      rw [hd, Bool.and_eq_true, isPrefixOf_eq_true_iff, isSuffixOf_eq_true_iff]
      constructor
      · rintro ⟨⟨t1, h1⟩, t2, h2⟩
        refine ⟨fun p' hp' => ?_, fun s' hs' => ?_⟩
        · injection hp' with hpp
          subst hpp
          exact ⟨t1, h1⟩
        · injection hs' with hss
          subst hss
          exact ⟨t2, h2⟩
      · rintro ⟨h1, h2⟩
        exact ⟨h1 p rfl, h2 s rfl⟩

/-- C1: `get_deployed` computes exactly the spec's two-hop derivation —
keccak over `0xff ∥ factory(20 bytes) ∥ salt(32 bytes) ∥ proxy-hash(32
bytes)`, low 20 bytes as proxy address, keccak over `0xd6 0x94 ∥ proxy ∥
0x01`, low 20 bytes rendered as a lowercase `0x`-prefixed hex string —
whenever the hash returns 32 bytes (each a byte value). -/
theorem get_deployed_matches_create3_spec (keccak : List Nat → List Nat)
    (hk : ∀ bs, (keccak bs).length = 32)
    (hb : ∀ bs, ∀ b ∈ keccak bs, b < 256)
    (salt : List Nat) (_hsalt : salt.length = 32) :
    get_deployed keccak salt = get_deployed_spec keccak salt ∧
    ((hexDecode (FACTORY_ADDRESS.drop 2)).getD []).length = 20 ∧
    (PROXY_BYTECODE_HASH keccak).length = 32 := by
  refine ⟨?_, by decide, hk _⟩
  have hE : ∀ b ∈ (keccak (0xff :: ((hexDecode (FACTORY_ADDRESS.drop 2)).getD []
      ++ salt ++ PROXY_BYTECODE_HASH keccak))).drop 12, b < 256 :=
    fun b hbmem => hb _ b (List.mem_of_mem_drop hbmem)
  simp only [get_deployed, get_deployed_spec, List.drop_succ_cons, List.drop_zero,
    hexDecode_hexEncode _ hE, Option.getD_some]

/-- C1 witness: the derivation equality instantiated at the stand-in hash
and the all-zero 32-byte salt. -/
theorem get_deployed_matches_create3_spec_witness :
    get_deployed keccak0 (List.replicate 32 0)
      = get_deployed_spec keccak0 (List.replicate 32 0) ∧
    ((hexDecode (FACTORY_ADDRESS.drop 2)).getD []).length = 20 ∧
    (PROXY_BYTECODE_HASH keccak0).length = 32 :=
  get_deployed_matches_create3_spec keccak0
    (fun _ => by simp [keccak0])
    (fun _ b hbm => by simp [keccak0, List.mem_replicate] at hbm; omega)
    (List.replicate 32 0) (by simp)

/-- C7: for every salt, the derived address string is the marker `"0x"`
followed by exactly 40 hexadecimal characters, given a hash that returns
32 bytes. -/
theorem get_deployed_shape (keccak : List Nat → List Nat)
    (hk : ∀ bs, (keccak bs).length = 32)
    (hb : ∀ bs, ∀ b ∈ keccak bs, b < 256) (salt : List Nat) :
    ∃ body, get_deployed keccak salt = '0' :: 'x' :: body ∧ body.length = 40 ∧
      ∀ c ∈ body, (hexDigitVal c).isSome = true := by
  refine ⟨_, rfl, ?_, ?_⟩
  · rw [hexEncode_length, List.length_drop, hk]
  · intro c hc
    obtain ⟨b, hbm, hcb⟩ := mem_hexEncode hc
    have hb256 : b < 256 := hb _ b (List.mem_of_mem_drop hbm)
    rcases hcb with rfl | rfl
    · have hlt : b / 16 < 16 := Nat.div_lt_of_lt_mul (by omega)
      rw [hexDigitVal_hexChar _ hlt]; rfl
    · have hlt : b % 16 < 16 := Nat.mod_lt _ (by omega)
      rw [hexDigitVal_hexChar _ hlt]; rfl

/-- C7 witness: the shape property instantiated at the stand-in hash and
the all-zero salt. -/
theorem get_deployed_shape_witness :
    ∃ body, get_deployed keccak0 (List.replicate 32 0) = '0' :: 'x' :: body ∧
      body.length = 40 ∧ ∀ c ∈ body, (hexDigitVal c).isSome = true :=
  get_deployed_shape keccak0
    (fun _ => by simp [keccak0])
    (fun _ b hbm => by simp [keccak0, List.mem_replicate] at hbm; omega)
    (List.replicate 32 0)

/-- C3: neither strategy ever produces a result whose address fails the
pattern matcher — any returned `SaltResult` satisfies `is_valid_address`
on its address field (and `none` carries no result). -/
theorem search_result_satisfies_matcher (keccak : List Nat → List Nat)
    (options : FindSaltOptions) (rng : Nat → List Nat) (numThreads : Nat)
    (rngPar : Nat → Nat → List Nat) :
    Option.all (fun r => is_valid_address r.address options.starts_with options.ends_with)
      (find_salt_sequential keccak options rng) = true ∧
    Option.all (fun r => is_valid_address r.address options.starts_with options.ends_with)
      (find_salt_parallel keccak options numThreads rngPar) = true := by
  constructor
  · rcases hloop : find_salt_sequential_loop keccak options rng options.max_attempts 0
      with ⟨res, c⟩
    have hseq : find_salt_sequential keccak options rng = res := by
      simp [find_salt_sequential, find_salt_sequential_run, hloop]
    rw [hseq]
    cases res with
    | none => rfl
    | some r =>
      obtain ⟨i, -, -, hvalid⟩ :=
        find_salt_sequential_loop_some keccak options rng options.max_attempts 0 r c hloop
      simpa [Option.all] using hvalid
  · rcases hpar : find_salt_parallel keccak options numThreads rngPar with _ | r
    · rfl
    · simp only [find_salt_parallel] at hpar
      obtain ⟨t, -, hsome⟩ := List.exists_of_findSome?_eq_some hpar
      rcases hloop : find_salt_parallel_loop keccak options (rngPar t)
          (attempts_per_thread options numThreads)
          (attempts_per_thread options numThreads) 0 0 with ⟨res, a1, p1⟩
      have hres : res = some r := by
        simp only [find_salt_parallel_thread, hloop] at hsome
        exact hsome
      subst hres
      obtain ⟨i, -, -, hvalid⟩ :=
        find_salt_parallel_loop_some keccak options (rngPar t)
          (attempts_per_thread options numThreads)
          (attempts_per_thread options numThreads) 0 0 r a1 p1 hloop
      simpa [Option.all] using hvalid

/-- C5: when either strategy succeeds, the reported `salt` field is the
hex rendering (with marker) of the raw 32 random bytes of the winning
attempt, while the reported `address` is derived from
`keccak (creator-bytes ++ those random bytes)`. -/
theorem result_salt_is_raw_random (keccak : List Nat → List Nat)
    (options : FindSaltOptions) (rng : Nat → List Nat) (numThreads : Nat)
    (rngPar : Nat → Nat → List Nat) (r : SaltResult) :
    (find_salt_sequential keccak options rng = some r →
      ∃ i, r.salt = '0' :: 'x' :: hexEncode (rng i) ∧
        r.address = get_deployed keccak (keccak (creatorBytes options ++ rng i))) ∧
    (find_salt_parallel keccak options numThreads rngPar = some r →
      ∃ t i, r.salt = '0' :: 'x' :: hexEncode (rngPar t i) ∧
        r.address = get_deployed keccak (keccak (creatorBytes options ++ rngPar t i))) := by
  constructor
  · intro hfind
    rcases hloop : find_salt_sequential_loop keccak options rng options.max_attempts 0
      with ⟨res, c⟩
    have hres : res = some r := by
      simp only [find_salt_sequential, find_salt_sequential_run, hloop] at hfind
      exact hfind
    subst hres
    obtain ⟨i, hsalt, haddr, -⟩ :=
      find_salt_sequential_loop_some keccak options rng options.max_attempts 0 r c hloop
    exact ⟨i, hsalt, haddr⟩
  · intro hfind
    simp only [find_salt_parallel] at hfind
    obtain ⟨t, -, hsome⟩ := List.exists_of_findSome?_eq_some hfind
    rcases hloop : find_salt_parallel_loop keccak options (rngPar t)
        (attempts_per_thread options numThreads)
        (attempts_per_thread options numThreads) 0 0 with ⟨res, a1, p1⟩
    have hres : res = some r := by
      simp only [find_salt_parallel_thread, hloop] at hsome
      exact hsome
    subst hres
    obtain ⟨i, hsalt, haddr, -⟩ :=
      find_salt_parallel_loop_some keccak options (rngPar t)
        (attempts_per_thread options numThreads)
        (attempts_per_thread options numThreads) 0 0 r a1 p1 hloop
    exact ⟨t, i, hsalt, haddr⟩

/-- C5 witness: both strategies instantiated with the stand-in hash, the
no-pattern budget-1 options and the all-zero random streams; the winning
attempt's raw random bytes are the 32 zero bytes. -/
theorem result_salt_is_raw_random_witness :
    (∃ i, witnessResult.salt = '0' :: 'x' :: hexEncode (rng0 i) ∧
      witnessResult.address
        = get_deployed keccak0 (keccak0 (creatorBytes witnessOptions ++ rng0 i))) ∧
    (∃ t i, witnessResult.salt = '0' :: 'x' :: hexEncode (rngPar0 t i) ∧
      witnessResult.address
        = get_deployed keccak0 (keccak0 (creatorBytes witnessOptions ++ rngPar0 t i))) :=
  ⟨(result_salt_is_raw_random keccak0 witnessOptions rng0 1 rngPar0 witnessResult).1
      (by decide),
   (result_salt_is_raw_random keccak0 witnessOptions rng0 1 rngPar0 witnessResult).2
      (by decide)⟩

/-- C6: the sequential strategy makes at most `max_attempts` derivation
calls, and with a zero budget it returns no result after zero hash
computations. -/
theorem sequential_budget_respect (keccak : List Nat → List Nat)
    (options : FindSaltOptions) (rng : Nat → List Nat) :
    (find_salt_sequential_run keccak options rng).2 ≤ options.max_attempts ∧
    find_salt_sequential_run keccak { options with max_attempts := 0 } rng
      = (none, 0) := by
  constructor
  · have h := find_salt_sequential_loop_count_le keccak options rng options.max_attempts 0
    simpa [find_salt_sequential_run] using h
  · rfl

/-- C8: `main` hands the search a `starts_with` fragment with `"0x"`
prepended and the `ends_with` fragment unchanged, so prefix matching runs
against the full marker-prefixed address string. -/
theorem main_normalizes_starts_with (args : Args) (s a : List Char)
    (h : args.starts_with = some s) :
    (main_find_salt_options args).starts_with = some ('0' :: 'x' :: s) ∧
    (main_find_salt_options args).ends_with = args.ends_with ∧
    is_valid_address a (main_find_salt_options args).starts_with none
      = (lowerStr ('0' :: 'x' :: s)).isPrefixOf (lowerStr a) := by
  refine ⟨?_, rfl, ?_⟩
  · simp [main_find_salt_options, h]
  · simp [main_find_salt_options, h, is_valid_address]

/-- C8 witness: the normalization at concrete arguments with fragment
`"ab"`, matched against the address string `"0xabcd"`. -/
theorem main_normalizes_starts_with_witness :
    (main_find_salt_options witnessArgs).starts_with = some ('0' :: 'x' :: "ab".data) ∧
    (main_find_salt_options witnessArgs).ends_with = witnessArgs.ends_with ∧
    is_valid_address "0xabcd".data (main_find_salt_options witnessArgs).starts_with none
      = (lowerStr ('0' :: 'x' :: "ab".data)).isPrefixOf (lowerStr "0xabcd".data) :=
  main_normalizes_starts_with witnessArgs "ab".data "0xabcd".data rfl

/-- C9: with a finite budget smaller than the worker count, every worker's
share is `0`, so its loop body never runs: the parallel strategy returns
no result and performs zero derivation or hash calls (and zero progress
updates). -/
theorem parallel_small_budget_returns_none (keccak : List Nat → List Nat)
    (options : FindSaltOptions) (numThreads : Nat)
    (rngPar : Nat → Nat → List Nat)
    (h : options.max_attempts < numThreads) :
    find_salt_parallel keccak options numThreads rngPar = none ∧
    parallel_total_attempts keccak options numThreads rngPar = 0 ∧
    parallel_total_progress keccak options numThreads rngPar = 0 := by
  have hapt : attempts_per_thread options numThreads = 0 := Nat.div_eq_of_lt h
  have hthread : ∀ t, find_salt_parallel_thread keccak options (rngPar t)
      (attempts_per_thread options numThreads) = (none, 0, 0) := by
    intro t
    rw [find_salt_parallel_thread, hapt]
    rfl
  refine ⟨?_, ?_, ?_⟩
  · apply findSome?_none_of_all_none
    intro t _
    rw [hthread t]
  · simp [parallel_total_attempts, hthread, sum_map_zero]
  · simp [parallel_total_progress, hthread, sum_map_zero]

/-- C9 witness: budget 1 split across 2 workers. -/
theorem parallel_small_budget_returns_none_witness :
    find_salt_parallel keccak0 witnessOptions 2 rngPar0 = none ∧
    parallel_total_attempts keccak0 witnessOptions 2 rngPar0 = 0 ∧
    parallel_total_progress keccak0 witnessOptions 2 rngPar0 = 0 :=
  parallel_small_budget_returns_none keccak0 witnessOptions 2 rngPar0 (by decide)

/-- C10: the shared progress counter is incremented exactly once per
attempt in non-silent runs and never in silent runs: a silent run ends
with the counter still `0`, so silent mode removes every lock
acquisition. -/
theorem silent_progress_counter_zero (keccak : List Nat → List Nat)
    (options : FindSaltOptions) (numThreads : Nat)
    (rngPar : Nat → Nat → List Nat) :
    parallel_total_progress keccak options numThreads rngPar =
      if options.silent then 0
      else parallel_total_attempts keccak options numThreads rngPar := by
  have hthread : ∀ t, (find_salt_parallel_thread keccak options (rngPar t)
      (attempts_per_thread options numThreads)).2.2 =
      if options.silent then 0
      else (find_salt_parallel_thread keccak options (rngPar t)
        (attempts_per_thread options numThreads)).2.1 := by
    intro t
    have h := find_salt_parallel_loop_progress keccak options (rngPar t)
      (attempts_per_thread options numThreads)
      (attempts_per_thread options numThreads) 0 0
    simpa [find_salt_parallel_thread] using h
  cases hs : options.silent with
  | false =>
    simp only [parallel_total_progress, parallel_total_attempts, hthread, hs,
      Bool.false_eq_true, if_false]
  | true =>
    simp only [parallel_total_progress, hthread, hs, if_true]
    exact sum_map_zero _

/-- C4 (amended): the parallel strategy gives each worker a share of
`⌊max_attempts / numThreads⌋` (remainder dropped); the budget is checked
once per inner batch, so each worker can overshoot its own share by up to
one batch unit minus one — hence the total across workers is bounded by
`max_attempts + numThreads * (chunk_size - 1)`, not by
`max_attempts + chunk_size`. -/
theorem parallel_budget_bound (keccak : List Nat → List Nat)
    (options : FindSaltOptions) (numThreads : Nat)
    (rngPar : Nat → Nat → List Nat) :
    attempts_per_thread options numThreads = options.max_attempts / numThreads ∧
    (∀ t, (find_salt_parallel_thread keccak options (rngPar t)
        (attempts_per_thread options numThreads)).2.1
      ≤ attempts_per_thread options numThreads + (chunk_size - 1)) ∧
    parallel_total_attempts keccak options numThreads rngPar
      ≤ options.max_attempts + numThreads * (chunk_size - 1) := by
  refine ⟨rfl, ?_, ?_⟩
  · intro t
    exact find_salt_parallel_loop_count_le keccak options (rngPar t)
      (attempts_per_thread options numThreads)
      (attempts_per_thread options numThreads) 0 0 (Nat.zero_le _)
  · have hbound : ∀ x ∈ (List.range numThreads).map (fun t =>
        (find_salt_parallel_thread keccak options (rngPar t)
          (attempts_per_thread options numThreads)).2.1),
        x ≤ attempts_per_thread options numThreads + (chunk_size - 1) := by
      intro x hx
      obtain ⟨t, -, rfl⟩ := List.mem_map.mp hx
      exact find_salt_parallel_loop_count_le keccak options (rngPar t)
        (attempts_per_thread options numThreads)
        (attempts_per_thread options numThreads) 0 0 (Nat.zero_le _)
    have hsum := list_sum_le_length_mul _ _ hbound
    rw [List.length_map, List.length_range] at hsum
    have hdiv : numThreads * attempts_per_thread options numThreads
        ≤ options.max_attempts := by
      rw [attempts_per_thread, Nat.mul_comm]
      exact Nat.div_mul_le_self _ _
    have hsplit : numThreads * (attempts_per_thread options numThreads + (chunk_size - 1))
        = numThreads * attempts_per_thread options numThreads
          + numThreads * (chunk_size - 1) := by ring
    calc parallel_total_attempts keccak options numThreads rngPar
        ≤ numThreads * (attempts_per_thread options numThreads + (chunk_size - 1)) := hsum
    _ ≤ options.max_attempts + numThreads * (chunk_size - 1) := by omega

/-- One worker of the counterexample run makes exactly one full inner
batch of `chunk_size` attempts: its share is `1`, but the batch loop only
re-checks the budget after 10000 attempts. -/
theorem cex_thread_attempts (rng : Nat → List Nat) :
    (find_salt_parallel_thread keccak0 cexOptions rng 1).2.1 = 10000 := by
  have hnm : ∀ i, is_valid_address
      (get_deployed keccak0 (keccak0 (creatorBytes cexOptions ++ rng i)))
      cexOptions.starts_with cexOptions.ends_with = false := by
    intro i
    show is_valid_address (get_deployed keccak0 (List.replicate 32 0))
      cexOptions.starts_with cexOptions.ends_with = false
    decide
  have hloop := find_salt_parallel_loop_none keccak0 cexOptions rng 1 rfl hnm 1 0 0
  rw [find_salt_parallel_thread, hloop]
  rfl

/-- C4 counterexample: with a budget of 2 over 2 workers each worker's
share is `1 = 2 / 2`, yet each worker still runs one full inner batch of
10000 attempts, so 20000 attempts are made in total — more than the
budget plus one batch unit (2 + 10000). -/
theorem parallel_budget_overshoot_cex :
    cexOptions.max_attempts + chunk_size
      < parallel_total_attempts keccak0 cexOptions 2 rngPar0 := by
  have hx : parallel_total_attempts keccak0 cexOptions 2 rngPar0 = 20000 := by
    have hapt : attempts_per_thread cexOptions 2 = 1 := rfl
    show ((List.range 2).map fun t =>
      (find_salt_parallel_thread keccak0 cexOptions (rngPar0 t)
        (attempts_per_thread cexOptions 2)).2.1).sum = 20000
    rw [hapt, show List.range 2 = [0, 1] from rfl]
    simp only [List.map_cons, List.map_nil, List.sum_cons, List.sum_nil]
    rw [cex_thread_attempts (rngPar0 0), cex_thread_attempts (rngPar0 1)]
    decide
  rw [hx]
  decide
